import Mathlib

/-!
Verification development for `mt-collatz.cpp` (COP4634 project 2).

The program computes Collatz stopping times for the inputs `1..N` with `T`
threads, aggregating them into a shared 1001-entry histogram.  We embed:

* `compute_stopping_time` — direct translation of the C++ function of the
  same name (C++ `%` and `/` on `int` truncate toward zero, so we use
  `Int.tmod` / `Int.tdiv`).  The `while (n != 1 && steps < 1000)` loop is
  represented with an explicit fuel argument that starts at 1000; since
  `steps` starts at 0 and the guard requires `steps < 1000`, the fuel
  `1000 - steps` never runs out before the guard fails, so the embedding
  computes exactly what the loop does.
* A small-step interleaving semantics of `collatz_worker`: each shared-memory
  access of the worker body is one atomic transition, local computation is
  folded into the adjacent transition.  The non-atomic `histogram[st]++` is
  split into a load transition and a store transition.  The
  `std::lock_guard` in the source is scoped to the body of
  `if (use_locks) { ... }`, so its acquire and release happen back to back,
  *before* the histogram increment: the model mirrors this with the
  `lockAcq` and `lockRel` phases preceding the `update` phase.
* The argument handling of `main` (`argc < 3` check, `atoi` conversion,
  `-nolock` flag).
-/

set_option maxRecDepth 16384

namespace MtCollatz
/-- One iteration of the loop body of `compute_stopping_time`:
`if (n % 2 == 0) n /= 2; else n = 3 * n + 1;` with C++ truncating
`%` and `/`. -/
def collatzStep (n : Int) : Int :=
  if n.tmod 2 = 0 then n.tdiv 2 else 3 * n + 1

/-- The loop of `compute_stopping_time`, with explicit fuel.  The guard
`n ≠ 1 ∧ steps < 1000` is the source's `n != 1 && steps < 1000`. -/
def stoppingGo : Nat → Int → Nat → Nat
  | 0, _, steps => steps
  | fuel + 1, n, steps =>
    if n ≠ 1 ∧ steps < 1000 then stoppingGo fuel (collatzStep n) (steps + 1) else steps

/-- Translation of `compute_stopping_time` (src/mt-collatz.cpp lines 43-55):
`steps` starts at 0 and the fuel starts at 1000, which is enough for the
`steps < 1000` guard to be the binding constraint. -/
def compute_stopping_time (n : Int) : Nat :=
  stoppingGo 1000 n 0

/-- Control location of one worker thread inside the body of
`collatz_worker` (src/mt-collatz.cpp lines 72-95).  Local, pure computation
(the `num > N` test and `compute_stopping_time`) is folded into the `fetch`
transition; every shared-memory access gets its own phase:

* `fetch` — about to execute `COUNTER.fetch_add(1)` (line 76);
* `lockAcq num st` — about to construct the `std::lock_guard` (line 87);
* `lockRel num st` — holding the mutex, about to leave the scope of the
  `if (use_locks)` block, which destroys the `lock_guard` and unlocks
  (line 88) — note nothing else happens inside that scope;
* `update num st` — about to test `stopping_time <= 1000` and load
  `histogram[stopping_time]` (lines 91-92, first half of the non-atomic
  `++`);
* `writeH num st r` — loaded value `r`, about to store `r + 1` (line 92,
  second half of the `++`);
* `done` — returned from the worker (line 79's `break`). -/
inductive Phase where
  | fetch : Phase
  | lockAcq : Int → Nat → Phase
  | lockRel : Int → Nat → Phase
  | update : Int → Nat → Phase
  | writeH : Int → Nat → Nat → Phase
  | done : Phase
deriving DecidableEq

/-- One worker thread's state, with ghost history: `tclaims` records every
value this thread's `fetch_add` returned, `processed` records every value for
which this thread completed the histogram store. -/
structure TState where
  phase : Phase
  tclaims : List Int
  processed : List Int
deriving DecidableEq

/-- Global state of a run: the shared atomic `COUNTER`, the shared
`histogram` (a `std::vector<int>(1001, 0)`), who holds `mtx`, the
`use_locks` flag, all thread states, and the ghost global order of
`fetch_add` results. -/
structure Config where
  counter : Int
  hist : List Nat
  mutex : Option Nat
  locks : Bool
  threads : List TState
  fetched : List Int
deriving DecidableEq

/-- Initial state after `main` has set up the globals: `COUNTER = 1`,
histogram all zeros, mutex free, `T` threads at the top of the worker
loop. -/
def initConfig (T : Nat) (locks : Bool) : Config :=
  { counter := 1,
    hist := List.replicate 1001 0,
    mutex := none,
    locks := locks,
    threads := List.replicate T { phase := Phase.fetch, tclaims := [], processed := [] },
    fetched := [] }

/-- One atomic transition of thread `t` in `collatz_worker` with bound `N`.
A thread that does not exist, is `done`, or is blocked on the mutex,
stutters (returns the configuration unchanged). -/
def collatz_worker_step (N : Int) (c : Config) (t : Nat) : Config :=
  match c.threads[t]? with
  | none => c
  | some ts =>
    match ts.phase with
    | Phase.fetch =>
      let num := c.counter
      if N < num then
        { c with counter := c.counter + 1,
                 fetched := c.fetched ++ [num],
                 threads := c.threads.set t
                   { ts with phase := Phase.done, tclaims := ts.tclaims ++ [num] } }
      else
        let st := compute_stopping_time num
        { c with counter := c.counter + 1,
                 fetched := c.fetched ++ [num],
                 threads := c.threads.set t
                   { ts with
                     phase := if c.locks then Phase.lockAcq num st else Phase.update num st,
                     tclaims := ts.tclaims ++ [num] } }
    | Phase.lockAcq num st =>
      match c.mutex with
      | some _ => c
      | none =>
        { c with mutex := some t,
                 threads := c.threads.set t { ts with phase := Phase.lockRel num st } }
    | Phase.lockRel num st =>
      { c with mutex := none,
               threads := c.threads.set t { ts with phase := Phase.update num st } }
    | Phase.update num st =>
      if st ≤ 1000 then
        let tsw : TState := { ts with phase := Phase.writeH num st (c.hist.getD st 0) }
        { c with threads := c.threads.set t tsw }
      else
        { c with threads := c.threads.set t { ts with phase := Phase.fetch } }
    | Phase.writeH num st r =>
      { c with hist := c.hist.set st (r + 1),
               threads := c.threads.set t
                 { ts with phase := Phase.fetch, processed := ts.processed ++ [num] } }
    | Phase.done => c

/-- Run a schedule: a list of thread indices, executed left to right.  Every
interleaving of the workers is some schedule. -/
def run (N : Int) (c : Config) (sched : List Nat) : Config :=
  sched.foldl (collatz_worker_step N) c

/-- The list `[1, 2, ..., len]` of the first `len` values handed out by
`COUNTER.fetch_add(1)` starting from `COUNTER = 1`. -/
def intRange : Nat → List Int
  | 0 => []
  | len + 1 => intRange len ++ [1 + (len : Int)]

/-- The work item a worker is currently holding, read off its phase. -/
def phaseJob : Phase → Option (Int × Nat)
  | Phase.fetch => none
  | Phase.lockAcq num st => some (num, st)
  | Phase.lockRel num st => some (num, st)
  | Phase.update num st => some (num, st)
  | Phase.writeH num st _ => some (num, st)
  | Phase.done => none

/-- Per-thread invariant of the worker semantics. -/
structure TInv (N : Int) (ts : TState) : Prop where
  processed_range : ∀ v ∈ ts.processed, 1 ≤ v ∧ v ≤ N
  claims_pos : ∀ v ∈ ts.tclaims, 1 ≤ v
  claims_le : ts.phase ≠ Phase.done → ∀ v ∈ ts.tclaims, v ≤ N
  over_once : (ts.tclaims.filter (fun v => decide (N < v))).length ≤ 1
  job_range : ∀ num st, phaseJob ts.phase = some (num, st) →
    1 ≤ num ∧ num ≤ N ∧ st = compute_stopping_time num

/-- Global invariant of the worker semantics: the counter equals one plus
the number of fetches, the fetched values are exactly `1, ..., counter - 1`
in order, the histogram keeps its 1001 entries, a finished thread certifies
that the counter has passed `N`, and every thread satisfies `TInv`. -/
structure Inv (N : Int) (T : Nat) (c : Config) : Prop where
  counter_eq : c.counter = 1 + (c.fetched.length : Int)
  fetched_eq : c.fetched = intRange c.fetched.length
  threads_len : c.threads.length = T
  hist_len : c.hist.length = 1001
  done_big : ∀ ts ∈ c.threads, ts.phase = Phase.done → N < c.counter
  per_thread : ∀ ts ∈ c.threads, TInv N ts

/-- Invariant of a run whose bound satisfies `N < 1`: nothing is ever
processed, so the histogram stays at its initial all-zero value and every
thread is either at the top of the loop or finished. -/
structure InvE (c : Config) : Prop where
  counter_pos : 1 ≤ c.counter
  hist_eq : c.hist = List.replicate 1001 0
  phases : ∀ ts ∈ c.threads, (ts.phase = Phase.fetch ∨ ts.phase = Phase.done) ∧
    ts.processed = [] ∧ ∀ v ∈ ts.tclaims, 1 ≤ v

/-- Characters skipped by C `atoi` before the number (C `isspace`). -/
def isCSpace (ch : Char) : Bool :=
  ch == ' ' || ch == '\t' || ch == '\n' || ch == '\x0B' || ch == '\x0C' || ch == '\r'

/-- Digit-prefix accumulator of C `atoi`: consumes leading decimal digits,
stops at the first non-digit. -/
def atoiDigits : List Char → Int → Int
  | [], acc => acc
  | ch :: cs, acc =>
    if ch.isDigit then atoiDigits cs (10 * acc + ((ch.toNat : Int) - 48)) else acc

/-- C `atoi` as used by `main` (src/mt-collatz.cpp lines 113-114): skip
whitespace, take an optional sign, then the decimal digit prefix; yields 0
when no digits are present.  No syntax error is ever reported. -/
def atoi (s : String) : Int :=
  match s.data.dropWhile isCSpace with
  | '-' :: cs => - atoiDigits cs 0
  | '+' :: cs => atoiDigits cs 0
  | cs => atoiDigits cs 0

/-- Outcome of the argument handling of `main` (src/mt-collatz.cpp lines
106-119): `usageError` means the usage message is printed and the exit
status is 1; `proceed N T use_locks` means the worker threads are
spawned. -/
inductive MainResult where
  | usageError : MainResult
  | proceed : Int → Int → Bool → MainResult
deriving DecidableEq

/-- Translation of the argument handling of `main`: `args` is the full
`argv` including the program name, so `args.length` is `argc`.  The only
check is `argc < 3`; `N` and `T` are converted with `atoi`, and `use_locks`
is cleared when the fourth argument is `-nolock`. -/
def mainParse (args : List String) : MainResult :=
  if args.length < 3 then MainResult.usageError
  else
    MainResult.proceed (atoi (args.getD 1 "")) (atoi (args.getD 2 ""))
      (if args.length = 4 ∧ args.getD 3 "" = "-nolock" then false else true)

/-- Modelled from the spec: a "syntactically valid integer" is an optional
sign followed by at least one decimal digit.  The source never performs
such a check; this is the claim-side notion used to refute C9. -/
def isValidInt (s : String) : Bool :=
  match s.data with
  | [] => false
  | '-' :: cs => !cs.isEmpty && cs.all Char.isDigit
  | '+' :: cs => !cs.isEmpty && cs.all Char.isDigit
  | cs => cs.all Char.isDigit

/-- Schedule for N = 13, T = 2, synchronized mode: thread 0 fully processes
the inputs 1..11 alone (5 transitions each), then both threads fetch (12
and 13, both with stopping time 9), both acquire and release the lock in
turn, and both load `histogram[9] = 0`. -/
def raceSchedPrefix : List Nat :=
  List.replicate 55 0 ++ [0, 1, 0, 0, 1, 1, 0, 1]

/-- `raceSchedPrefix` followed by both stores (the second overwrites the
first with the same value 1, losing an update) and both final fetches,
which return 14 and 15 and end both threads. -/
def raceSched : List Nat :=
  raceSchedPrefix ++ [0, 1, 0, 1]

theorem stoppingGo_le (fuel : Nat) (n : Int) (steps : Nat) :
    stoppingGo fuel n steps ≤ steps + fuel := by
  induction fuel generalizing n steps with
  | zero => simp [stoppingGo]
  | succ f ih =>
    simp only [stoppingGo]
    split
    · exact (ih (collatzStep n) (steps + 1)).trans (by omega)
    · omega

theorem compute_stopping_time_le (n : Int) : compute_stopping_time n ≤ 1000 :=
  stoppingGo_le 1000 n 0

/-- If the Collatz iteration starting at `n` first reaches 1 after exactly
`s` further steps and the remaining fuel suffices, the loop stops with
`steps + s`. -/
theorem stoppingGo_eq_of_reach (fuel : Nat) :
    ∀ (steps s : Nat) (n : Int), fuel + steps = 1000 → s ≤ fuel →
      collatzStep^[s] n = 1 → (∀ j, j < s → collatzStep^[j] n ≠ 1) →
      stoppingGo fuel n steps = steps + s := by
  induction fuel with
  | zero =>
    intro steps s n _ hs _ _
    interval_cases s
    simp [stoppingGo]
  | succ f ih =>
    intro steps s n hfs hs h1 hmin
    match s with
    | 0 =>
      simp only [Function.iterate_zero, id_eq] at h1
      simp [stoppingGo, h1]
    | s' + 1 =>
      have hn : n ≠ 1 := by
        have := hmin 0 (Nat.succ_pos s')
        simpa using this
      have hsteps : steps < 1000 := by omega
      have hrec : stoppingGo (f + 1) n steps = stoppingGo f (collatzStep n) (steps + 1) := by
        simp [stoppingGo, hn, hsteps]
      rw [hrec, ih (steps + 1) s' (collatzStep n) (by omega) (by omega)]
      · omega
      · rw [← Function.iterate_succ_apply]
        exact h1
      · intro j hj
        rw [← Function.iterate_succ_apply]
        exact hmin (j + 1) (by omega)

/-- If the Collatz iteration starting at `n` does not reach 1 within the
remaining fuel, the loop runs the guard down to `steps = 1000`. -/
theorem stoppingGo_eq_of_no_reach (fuel : Nat) :
    ∀ (steps : Nat) (n : Int), fuel + steps = 1000 →
      (∀ j, j < fuel → collatzStep^[j] n ≠ 1) →
      stoppingGo fuel n steps = 1000 := by
  induction fuel with
  | zero =>
    intro steps n hfs _
    simp only [stoppingGo]
    omega
  | succ f ih =>
    intro steps n hfs h
    have hn : n ≠ 1 := by
      have := h 0 (Nat.succ_pos f)
      simpa using this
    have hsteps : steps < 1000 := by omega
    have hrec : stoppingGo (f + 1) n steps = stoppingGo f (collatzStep n) (steps + 1) := by
      simp [stoppingGo, hn, hsteps]
    rw [hrec]
    refine ih (steps + 1) (collatzStep n) (by omega) ?_
    intro j hj
    rw [← Function.iterate_succ_apply]
    exact h (j + 1) (by omega)

theorem collatzStep_zero : collatzStep 0 = 0 := by
  decide

theorem compute_stopping_time_zero : compute_stopping_time 0 = 1000 := by
  refine stoppingGo_eq_of_no_reach 1000 0 0 rfl ?_
  intro j _
  rw [Function.iterate_fixed collatzStep_zero]
  decide

theorem mem_intRange {len : Nat} {m : Int} :
    m ∈ intRange len ↔ 1 ≤ m ∧ m < 1 + (len : Int) := by
  induction len with
  | zero => simp [intRange]
  | succ l ih =>
    simp only [intRange, List.mem_append, List.mem_singleton, ih]
    constructor
    · rintro (⟨h1, h2⟩ | rfl) <;> constructor <;> omega
    · rintro ⟨h1, h2⟩
      by_cases hm : m = 1 + (l : Int)
      · exact Or.inr hm
      · exact Or.inl ⟨h1, by omega⟩

theorem intRange_nodup (len : Nat) : (intRange len).Nodup := by
  induction len with
  | zero => simp [intRange]
  | succ l ih =>
    rw [intRange, List.nodup_append]
    refine ⟨ih, List.nodup_singleton _, ?_⟩
    intro a ha hb
    rw [List.mem_singleton] at hb
    rw [mem_intRange] at ha
    omega

theorem filter_over_nil (N : Int) (l : List Int) (h : ∀ v ∈ l, v ≤ N) :
    l.filter (fun v => decide (N < v)) = [] := by
  rw [List.filter_eq_nil_iff]
  intro a ha
  simpa using (h a ha).not_lt

theorem tinv_init (N : Int) : TInv N { phase := Phase.fetch, tclaims := [], processed := [] } := by
  constructor <;> simp [phaseJob]

theorem inv_init (N : Int) (T : Nat) (locks : Bool) : Inv N T (initConfig T locks) := by
  refine ⟨?_, rfl, ?_, ?_, ?_, ?_⟩
  · show (1 : Int) = 1 + (([] : List Int).length : Int)
    decide
  · show (List.replicate T ({ phase := Phase.fetch, tclaims := [], processed := [] } : TState)).length = T
    exact List.length_replicate T _
  · show (List.replicate 1001 (0 : Nat)).length = 1001
    exact List.length_replicate 1001 0
  · intro ts hts
    have hts2 : ts ∈ List.replicate T ({ phase := Phase.fetch, tclaims := [], processed := [] } : TState) := hts
    rw [List.eq_of_mem_replicate hts2]
    intro hdone
    exact absurd hdone (by decide)
  · intro ts hts
    have hts2 : ts ∈ List.replicate T ({ phase := Phase.fetch, tclaims := [], processed := [] } : TState) := hts
    rw [List.eq_of_mem_replicate hts2]
    exact tinv_init N

theorem per_thread_set (N : Int) (l : List TState) (t : Nat) (ts2 : TState)
    (h : ∀ ts ∈ l, TInv N ts) (h2 : TInv N ts2) :
    ∀ x ∈ l.set t ts2, TInv N x := by
  intro x hx
  rcases List.mem_or_eq_of_mem_set hx with hx2 | rfl
  · exact h x hx2
  · exact h2

/-- Changing only the phase of a thread preserves `TInv` as long as the old
and new phases are not `done` and the new phase carries no new job. -/
theorem tinv_set_phase (N : Int) (ts : TState) (h : TInv N ts) (ph : Phase)
    (_hnd : ph ≠ Phase.done) (hnd2 : ts.phase ≠ Phase.done)
    (hjob : ∀ num st, phaseJob ph = some (num, st) → phaseJob ts.phase = some (num, st)) :
    TInv N { ts with phase := ph } := by
  refine ⟨h.processed_range, h.claims_pos, fun _ => h.claims_le hnd2, h.over_once, ?_⟩
  intro num st hp
  exact h.job_range num st (hjob num st hp)

theorem inv_step (N : Int) (T : Nat) (c : Config) (t : Nat) (h : Inv N T c) :
    Inv N T (collatz_worker_step N c t) := by
  rcases hget : c.threads[t]? with _ | ts
  · simpa only [collatz_worker_step, hget] using h
  have hmem : ts ∈ c.threads := List.getElem?_mem hget
  have htinv : TInv N ts := h.per_thread ts hmem
  have hcpos : 1 ≤ c.counter := by
    have := h.counter_eq
    omega
  cases hph : ts.phase with
  | fetch =>
    have hnd2 : ts.phase ≠ Phase.done := by rw [hph]; decide
    simp only [collatz_worker_step, hget, hph]
    by_cases hlt : N < c.counter
    · simp only [if_pos hlt]
      refine ⟨?_, ?_, ?_, h.hist_len, ?_, ?_⟩
      · simp only [List.length_append, List.length_singleton]
        have := h.counter_eq
        push_cast
        omega
      · have e1 : (c.fetched ++ [c.counter]).length = c.fetched.length + 1 := by simp
        rw [e1]
        show c.fetched ++ [c.counter] = intRange c.fetched.length ++ [1 + (c.fetched.length : Int)]
        rw [← h.fetched_eq, h.counter_eq]
      · rw [List.length_set]
        exact h.threads_len
      · intro x hx hxd
        show N < c.counter + 1
        rcases List.mem_or_eq_of_mem_set hx with hx2 | rfl
        · have := h.done_big x hx2 hxd
          omega
        · omega
      · refine per_thread_set N c.threads t _ h.per_thread ?_
        refine ⟨htinv.processed_range, ?_, ?_, ?_, ?_⟩
        · intro v hv
          rcases List.mem_append.1 hv with h1 | h2
          · exact htinv.claims_pos v h1
          · rw [List.mem_singleton] at h2
            omega
        · intro hnd
          exact absurd rfl hnd
        · rw [List.filter_append, filter_over_nil N ts.tclaims (htinv.claims_le hnd2)]
          simpa using List.length_filter_le _ [c.counter]
        · intro num st hjob
          exact Option.noConfusion hjob
    · simp only [if_neg hlt]
      have hpd : (if c.locks then Phase.lockAcq c.counter (compute_stopping_time c.counter)
          else Phase.update c.counter (compute_stopping_time c.counter)) ≠ Phase.done := by
        split <;> intro hx <;> exact Phase.noConfusion hx
      have hpj : phaseJob (if c.locks then Phase.lockAcq c.counter (compute_stopping_time c.counter)
          else Phase.update c.counter (compute_stopping_time c.counter)) =
          some (c.counter, compute_stopping_time c.counter) := by
        split <;> rfl
      refine ⟨?_, ?_, ?_, h.hist_len, ?_, ?_⟩
      · simp only [List.length_append, List.length_singleton]
        have := h.counter_eq
        push_cast
        omega
      · have e1 : (c.fetched ++ [c.counter]).length = c.fetched.length + 1 := by simp
        rw [e1]
        show c.fetched ++ [c.counter] = intRange c.fetched.length ++ [1 + (c.fetched.length : Int)]
        rw [← h.fetched_eq, h.counter_eq]
      · rw [List.length_set]
        exact h.threads_len
      · intro x hx hxd
        show N < c.counter + 1
        rcases List.mem_or_eq_of_mem_set hx with hx2 | rfl
        · have := h.done_big x hx2 hxd
          omega
        · exact absurd hxd hpd
      · refine per_thread_set N c.threads t _ h.per_thread ?_
        refine ⟨htinv.processed_range, ?_, ?_, ?_, ?_⟩
        · intro v hv
          rcases List.mem_append.1 hv with h1 | h2
          · exact htinv.claims_pos v h1
          · rw [List.mem_singleton] at h2
            omega
        · intro _ v hv
          rcases List.mem_append.1 hv with h1 | h2
          · exact htinv.claims_le hnd2 v h1
          · rw [List.mem_singleton] at h2
            omega
        · have hall : ∀ v ∈ ts.tclaims ++ [c.counter], v ≤ N := by
            intro v hv
            rcases List.mem_append.1 hv with h1 | h2
            · exact htinv.claims_le hnd2 v h1
            · rw [List.mem_singleton] at h2
              omega
          rw [filter_over_nil N _ hall]
          decide
        · intro num st hjob
          rw [hpj] at hjob
          injection hjob with hj
          injection hj with hj1 hj2
          subst hj1
          subst hj2
          exact ⟨hcpos, by omega, rfl⟩
  | lockAcq num st =>
    have hnd2 : ts.phase ≠ Phase.done := by rw [hph]; intro hx; exact Phase.noConfusion hx
    simp only [collatz_worker_step, hget, hph]
    rcases hmu : c.mutex with _ | m
    · simp only [hmu]
      refine ⟨h.counter_eq, h.fetched_eq, ?_, h.hist_len, ?_, ?_⟩
      · rw [List.length_set]
        exact h.threads_len
      · intro x hx hxd
        rcases List.mem_or_eq_of_mem_set hx with hx2 | rfl
        · exact h.done_big x hx2 hxd
        · exact absurd hxd (by intro hx2; exact Phase.noConfusion hx2)
      · refine per_thread_set N c.threads t _ h.per_thread ?_
        refine tinv_set_phase N ts htinv _ (by intro hx; exact Phase.noConfusion hx) hnd2 ?_
        intro n2 s2 hj
        rw [hph]
        exact hj
    · simpa only [hmu] using h
  | lockRel num st =>
    have hnd2 : ts.phase ≠ Phase.done := by rw [hph]; intro hx; exact Phase.noConfusion hx
    simp only [collatz_worker_step, hget, hph]
    refine ⟨h.counter_eq, h.fetched_eq, ?_, h.hist_len, ?_, ?_⟩
    · rw [List.length_set]
      exact h.threads_len
    · intro x hx hxd
      rcases List.mem_or_eq_of_mem_set hx with hx2 | rfl
      · exact h.done_big x hx2 hxd
      · exact absurd hxd (by intro hx2; exact Phase.noConfusion hx2)
    · refine per_thread_set N c.threads t _ h.per_thread ?_
      refine tinv_set_phase N ts htinv _ (by intro hx; exact Phase.noConfusion hx) hnd2 ?_
      intro n2 s2 hj
      rw [hph]
      exact hj
  | update num st =>
    have hnd2 : ts.phase ≠ Phase.done := by rw [hph]; intro hx; exact Phase.noConfusion hx
    simp only [collatz_worker_step, hget, hph]
    by_cases hst : st ≤ 1000
    · simp only [if_pos hst]
      refine ⟨h.counter_eq, h.fetched_eq, ?_, h.hist_len, ?_, ?_⟩
      · rw [List.length_set]
        exact h.threads_len
      · intro x hx hxd
        rcases List.mem_or_eq_of_mem_set hx with hx2 | rfl
        · exact h.done_big x hx2 hxd
        · exact absurd hxd (by intro hx2; exact Phase.noConfusion hx2)
      · refine per_thread_set N c.threads t _ h.per_thread ?_
        refine tinv_set_phase N ts htinv _ (by intro hx; exact Phase.noConfusion hx) hnd2 ?_
        intro n2 s2 hj
        rw [hph]
        simp only [phaseJob] at hj ⊢
        exact hj
    · simp only [if_neg hst]
      refine ⟨h.counter_eq, h.fetched_eq, ?_, h.hist_len, ?_, ?_⟩
      · rw [List.length_set]
        exact h.threads_len
      · intro x hx hxd
        rcases List.mem_or_eq_of_mem_set hx with hx2 | rfl
        · exact h.done_big x hx2 hxd
        · exact absurd hxd (by intro hx2; exact Phase.noConfusion hx2)
      · refine per_thread_set N c.threads t _ h.per_thread ?_
        refine tinv_set_phase N ts htinv _ (by intro hx; exact Phase.noConfusion hx) hnd2 ?_
        intro n2 s2 hj
        exact Option.noConfusion hj
  | writeH num st r =>
    have hnd2 : ts.phase ≠ Phase.done := by rw [hph]; intro hx; exact Phase.noConfusion hx
    have hjob : 1 ≤ num ∧ num ≤ N ∧ st = compute_stopping_time num := by
      refine htinv.job_range num st ?_
      rw [hph]
      rfl
    simp only [collatz_worker_step, hget, hph]
    refine ⟨h.counter_eq, h.fetched_eq, ?_, ?_, ?_, ?_⟩
    · rw [List.length_set]
      exact h.threads_len
    · rw [List.length_set]
      exact h.hist_len
    · intro x hx hxd
      rcases List.mem_or_eq_of_mem_set hx with hx2 | rfl
      · exact h.done_big x hx2 hxd
      · exact absurd hxd (by intro hx2; exact Phase.noConfusion hx2)
    · refine per_thread_set N c.threads t _ h.per_thread ?_
      refine ⟨?_, htinv.claims_pos, fun _ => htinv.claims_le hnd2, htinv.over_once, ?_⟩
      · intro v hv
        rcases List.mem_append.1 hv with h1 | h2
        · exact htinv.processed_range v h1
        · rw [List.mem_singleton] at h2
          subst h2
          exact ⟨hjob.1, hjob.2.1⟩
      · intro n2 s2 hj
        exact Option.noConfusion hj
  | done =>
    simpa only [collatz_worker_step, hget, hph] using h

theorem inv_run (N : Int) (T : Nat) (sched : List Nat) :
    ∀ c : Config, Inv N T c → Inv N T (run N c sched) := by
  induction sched with
  | nil => intro c h; exact h
  | cons a l ih =>
    intro c h
    exact ih (collatz_worker_step N c a) (inv_step N T c a h)

/-- A step of thread `t` does not change the state of another thread `i`. -/
theorem step_other_thread (N : Int) (c : Config) (t i : Nat) (hne : t ≠ i) :
    (collatz_worker_step N c t).threads[i]? = c.threads[i]? := by
  rcases hget : c.threads[t]? with _ | ts
  · simp only [collatz_worker_step, hget]
  cases hph : ts.phase with
  | fetch =>
    simp only [collatz_worker_step, hget, hph]
    by_cases hlt : N < c.counter
    · simp only [if_pos hlt, List.getElem?_set_ne hne]
    · simp only [if_neg hlt, List.getElem?_set_ne hne]
  | lockAcq num st =>
    simp only [collatz_worker_step, hget, hph]
    rcases hmu : c.mutex with _ | m <;> simp only [hmu, List.getElem?_set_ne hne]
  | lockRel num st =>
    simp only [collatz_worker_step, hget, hph, List.getElem?_set_ne hne]
  | update num st =>
    simp only [collatz_worker_step, hget, hph]
    by_cases hst : st ≤ 1000
    · simp only [if_pos hst, List.getElem?_set_ne hne]
    · simp only [if_neg hst, List.getElem?_set_ne hne]
  | writeH num st r =>
    simp only [collatz_worker_step, hget, hph, List.getElem?_set_ne hne]
  | done =>
    simp only [collatz_worker_step, hget, hph]

/-- A finished thread never moves again: `done` is absorbing. -/
theorem step_done_frozen (N : Int) (c : Config) (t i : Nat) (ts : TState)
    (hts : c.threads[i]? = some ts) (hdone : ts.phase = Phase.done) :
    (collatz_worker_step N c t).threads[i]? = some ts := by
  by_cases hit : t = i
  · subst hit
    simp only [collatz_worker_step, hts, hdone]
  · rw [step_other_thread N c t i hit]
    exact hts

theorem run_append (N : Int) (c : Config) (s1 s2 : List Nat) :
    run N c (s1 ++ s2) = run N (run N c s1) s2 := by
  simp [run, List.foldl_append]

theorem run_done_frozen (N : Int) (sched : List Nat) :
    ∀ (c : Config) (i : Nat) (ts : TState), c.threads[i]? = some ts →
      ts.phase = Phase.done → (run N c sched).threads[i]? = some ts := by
  induction sched with
  | nil =>
    intro c i ts hts _
    exact hts
  | cons a l ih =>
    intro c i ts hts hdone
    exact ih (collatz_worker_step N c a) i ts (step_done_frozen N c a i ts hts hdone) hdone

theorem invE_init (T : Nat) (locks : Bool) : InvE (initConfig T locks) := by
  refine ⟨le_refl 1, rfl, ?_⟩
  intro ts hts
  have hts2 : ts ∈ List.replicate T ({ phase := Phase.fetch, tclaims := [], processed := [] } : TState) := hts
  rw [List.eq_of_mem_replicate hts2]
  exact ⟨Or.inl rfl, rfl, by intro v hv; exact absurd hv (List.not_mem_nil v)⟩

theorem invE_step (N : Int) (c : Config) (t : Nat) (hN : N < 1) (h : InvE c) :
    InvE (collatz_worker_step N c t) := by
  rcases hget : c.threads[t]? with _ | ts
  · simpa only [collatz_worker_step, hget] using h
  have hmem : ts ∈ c.threads := List.getElem?_mem hget
  rcases h.phases ts hmem with ⟨hpf, hpr, hcl⟩
  rcases hpf with hph | hph
  · have hlt : N < c.counter := by
      have := h.counter_pos
      omega
    simp only [collatz_worker_step, hget, hph, if_pos hlt]
    refine ⟨?_, h.hist_eq, ?_⟩
    · show 1 ≤ c.counter + 1
      have := h.counter_pos
      omega
    · intro x hx
      rcases List.mem_or_eq_of_mem_set hx with hx2 | rfl
      · exact h.phases x hx2
      · refine ⟨Or.inr rfl, hpr, ?_⟩
        intro v hv
        rcases List.mem_append.1 hv with h1 | h2
        · exact hcl v h1
        · rw [List.mem_singleton] at h2
          have := h.counter_pos
          omega
  · simpa only [collatz_worker_step, hget, hph] using h

theorem invE_run (N : Int) (sched : List Nat) (hN : N < 1) :
    ∀ c : Config, InvE c → InvE (run N c sched) := by
  induction sched with
  | nil =>
    intro c h
    exact h
  | cons a l ih =>
    intro c h
    exact ih (collatz_worker_step N c a) (invE_step N c a hN h)

/-- C1 (refuted; code bug): in synchronized mode the mutex is NOT held for
the duration of the histogram increment.  After `raceSchedPrefix`, both
workers sit between the load and the store of their `histogram[9]++`
(phases `writeH 12 9 0` and `writeH 13 9 0`) while the mutex is free: the
`std::lock_guard` was already destroyed at the closing brace of the
`if (use_locks)` block (line 88), before the increment on line 92, so the
two workers' increments interleave. -/
theorem C1_increment_unprotected :
    (run 13 (initConfig 2 true) raceSchedPrefix).locks = true ∧
    (run 13 (initConfig 2 true) raceSchedPrefix).mutex = none ∧
    (run 13 (initConfig 2 true) raceSchedPrefix).threads.map TState.phase =
      [Phase.writeH 12 9 0, Phase.writeH 13 9 0] := by
  refine ⟨by decide, by decide, by decide⟩

/-- C2 (refuted; code bug): with N = 13, T = 2 in synchronized mode there
is an interleaving in which both workers read `histogram[9] = 0` before
either writes it back, so one increment is lost: both threads finish, yet
the histogram entries sum to 12, not N = 13. -/
theorem C2_lost_update :
    (run 13 (initConfig 2 true) raceSched).locks = true ∧
    (run 13 (initConfig 2 true) raceSched).threads.map TState.phase =
      [Phase.done, Phase.done] ∧
    (run 13 (initConfig 2 true) raceSched).hist.sum = 12 ∧ (12 : Nat) ≠ 13 := by
  refine ⟨by decide, by decide, by decide, by decide⟩

/-- C3: for every `n ≥ 1`, `compute_stopping_time n` returns the exact
number `s` of Collatz steps needed for `n` to first reach 1 whenever
`s ≤ 1000`, returns exactly 1000 when 1 is not reached within 1000 steps,
and in particular returns 0 on input 1. -/
theorem C3_stopping_time_exact (n : Int) (_hn : 1 ≤ n) :
    (∀ s : Nat, s ≤ 1000 → collatzStep^[s] n = 1 →
      (∀ j, j < s → collatzStep^[j] n ≠ 1) → compute_stopping_time n = s) ∧
    ((∀ s : Nat, s ≤ 1000 → collatzStep^[s] n ≠ 1) → compute_stopping_time n = 1000) ∧
    compute_stopping_time 1 = 0 := by
  refine ⟨?_, ?_, rfl⟩
  · intro s hs h1 hmin
    have := stoppingGo_eq_of_reach 1000 0 s n rfl hs h1 hmin
    simpa using this
  · intro hno
    exact stoppingGo_eq_of_no_reach 1000 0 n rfl (fun j hj => hno j (by omega))

/-- Witness for C3 at `n = 6`: the stopping time is exactly 8. -/
theorem C3_stopping_time_exact_witness :
    (1 : Int) ≤ 6 ∧ compute_stopping_time 6 = 8 :=
  ⟨by decide, (C3_stopping_time_exact 6 (by decide)).1 8 (by decide) (by decide) (by decide)⟩

/-- C4: in any completed run (all workers `done`, `T ≥ 1`), the values
handed out by `COUNTER.fetch_add(1)` are pairwise distinct and every
integer in `[1, N]` was handed out exactly once, for every schedule. -/
theorem C4_claims_unique_cover (N : Int) (T : Nat) (locks : Bool) (sched : List Nat)
    (hT : 1 ≤ T)
    (hdone : ∀ ts ∈ (run N (initConfig T locks) sched).threads, ts.phase = Phase.done) :
    (run N (initConfig T locks) sched).fetched.Nodup ∧
    ∀ m : Int, 1 ≤ m → m ≤ N →
      (run N (initConfig T locks) sched).fetched.count m = 1 := by
  have h := inv_run N T sched (initConfig T locks) (inv_init N T locks)
  have hnodup : (run N (initConfig T locks) sched).fetched.Nodup := by
    rw [h.fetched_eq]
    exact intRange_nodup _
  refine ⟨hnodup, ?_⟩
  intro m hm1 hm2
  have hlen := h.threads_len
  have hne : (run N (initConfig T locks) sched).threads ≠ [] := by
    intro he
    rw [he] at hlen
    simp only [List.length_nil] at hlen
    omega
  obtain ⟨ts, hts⟩ := List.exists_mem_of_ne_nil _ hne
  have hbig : N < (run N (initConfig T locks) sched).counter :=
    h.done_big ts hts (hdone ts hts)
  have hmem : m ∈ (run N (initConfig T locks) sched).fetched := by
    rw [h.fetched_eq, mem_intRange]
    have := h.counter_eq
    exact ⟨hm1, by omega⟩
  exact List.count_eq_one_of_mem hnodup hmem

/-- Witness for C4: the completed run N = 1, T = 1. -/
theorem C4_claims_unique_cover_witness :
    1 ≤ 1 ∧
    (∀ ts ∈ (run 1 (initConfig 1 true) [0, 0, 0, 0, 0, 0]).threads,
      ts.phase = Phase.done) ∧
    (run 1 (initConfig 1 true) [0, 0, 0, 0, 0, 0]).fetched.Nodup ∧
    (run 1 (initConfig 1 true) [0, 0, 0, 0, 0, 0]).fetched.count 1 = 1 := by
  have h := C4_claims_unique_cover 1 1 true [0, 0, 0, 0, 0, 0] (by decide) (by decide)
  exact ⟨by decide, by decide, h.1, h.2 1 (by decide) (by decide)⟩

/-- C5: for every `n ≥ 1` the stopping time is at most 1000, so it is a
valid index into the 1001-entry histogram of any run, and the worker's
guard `stopping_time <= 1000` never excludes a processed input. -/
theorem C5_index_in_bounds (n : Int) (_hn : 1 ≤ n) :
    compute_stopping_time n ≤ 1000 ∧
    ∀ (N : Int) (T : Nat) (locks : Bool) (sched : List Nat),
      compute_stopping_time n < (run N (initConfig T locks) sched).hist.length := by
  refine ⟨compute_stopping_time_le n, ?_⟩
  intro N T locks sched
  have h := inv_run N T sched (initConfig T locks) (inv_init N T locks)
  rw [h.hist_len]
  have := compute_stopping_time_le n
  omega

/-- Witness for C5 at `n = 3`. -/
theorem C5_index_in_bounds_witness :
    (1 : Int) ≤ 3 ∧ compute_stopping_time 3 ≤ 1000 ∧
    compute_stopping_time 3 < (run 5 (initConfig 1 true) []).hist.length := by
  have h := C5_index_in_bounds 3 (by decide)
  exact ⟨by decide, h.1, h.2 5 1 true []⟩

/-- C6: a worker never processes a value beyond `N`: every recorded claim
`v > N` of a thread was discarded (it is in no processed list) and drove
the thread to `done`; at most one claim of a thread can exceed `N` (no
further claims after the overshooting one); and a `done` thread's state
persists unchanged under any further scheduling. -/
theorem C6_discard_beyond_N (N : Int) (T : Nat) (locks : Bool)
    (sched sched2 : List Nat) (i : Nat) (ts : TState)
    (hts : (run N (initConfig T locks) sched).threads[i]? = some ts) :
    (∀ v ∈ ts.tclaims, N < v → ts.phase = Phase.done ∧ v ∉ ts.processed) ∧
    (ts.tclaims.filter (fun v => decide (N < v))).length ≤ 1 ∧
    (ts.phase = Phase.done →
      (run N (initConfig T locks) (sched ++ sched2)).threads[i]? = some ts) := by
  have h := inv_run N T sched (initConfig T locks) (inv_init N T locks)
  have hmem : ts ∈ (run N (initConfig T locks) sched).threads := List.getElem?_mem hts
  have ht := h.per_thread ts hmem
  refine ⟨?_, ht.over_once, ?_⟩
  · intro v hv hNv
    have hdone : ts.phase = Phase.done := by
      by_contra hnd
      have := ht.claims_le hnd v hv
      omega
    refine ⟨hdone, ?_⟩
    intro hp
    have := ht.processed_range v hp
    omega
  · intro hdone
    rw [run_append]
    exact run_done_frozen N sched2 _ i ts hts hdone

/-- Witness for C6: in the completed run N = 1, T = 1 the single thread
ends `done` with claims `[1, 2]` (2 > 1 discarded) and processed `[1]`,
and one more scheduled step changes nothing. -/
theorem C6_discard_beyond_N_witness :
    ((run 1 (initConfig 1 true) [0, 0, 0, 0, 0, 0]).threads[0]? =
      some { phase := Phase.done, tclaims := [1, 2], processed := [1] }) ∧
    ((∀ v ∈ [(1 : Int), 2], (1 : Int) < v → Phase.done = Phase.done ∧ v ∉ [(1 : Int)]) ∧
      (([(1 : Int), 2].filter (fun v => decide ((1 : Int) < v))).length ≤ 1) ∧
      (Phase.done = Phase.done →
        (run 1 (initConfig 1 true) ([0, 0, 0, 0, 0, 0] ++ [0])).threads[0]? =
          some { phase := Phase.done, tclaims := [1, 2], processed := [1] })) := by
  have h := C6_discard_beyond_N 1 1 true [0, 0, 0, 0, 0, 0] [0] 0
    { phase := Phase.done, tclaims := [1, 2], processed := [1] } (by decide)
  exact ⟨by decide, h⟩

/-- C7: the concrete run N = 10, T = 1, synchronized mode: the stopping
times of 1..10 are `[0, 1, 7, 2, 5, 8, 16, 3, 19, 6]`, and the final
histogram is 1 exactly at indices {0, 1, 2, 3, 5, 6, 7, 8, 16, 19}, 0
elsewhere, with total sum 10. -/
theorem C7_concrete_run :
    (List.map compute_stopping_time [1, 2, 3, 4, 5, 6, 7, 8, 9, 10] =
      [0, 1, 7, 2, 5, 8, 16, 3, 19, 6]) ∧
    (run 10 (initConfig 1 true) (List.replicate 51 0)).hist =
      (List.range 1001).map
        (fun i => if i = 0 ∨ i = 1 ∨ i = 2 ∨ i = 3 ∨ i = 5 ∨ i = 6 ∨ i = 7 ∨ i = 8 ∨
          i = 16 ∨ i = 19 then 1 else 0) ∧
    (run 10 (initConfig 1 true) (List.replicate 51 0)).hist.sum = 10 ∧
    (∀ ts ∈ (run 10 (initConfig 1 true) (List.replicate 51 0)).threads,
      ts.phase = Phase.done) := by
  refine ⟨by decide, by decide, by decide, by decide⟩

/-- C8: when `N < 1` nothing is processed by any schedule: the histogram
stays all zeros (sum 0), no thread processes anything, and every claim any
thread received exceeds `N`. -/
theorem C8_empty_range (N : Int) (T : Nat) (locks : Bool) (sched : List Nat)
    (hN : N < 1) :
    (run N (initConfig T locks) sched).hist = List.replicate 1001 0 ∧
    (run N (initConfig T locks) sched).hist.sum = 0 ∧
    ∀ ts ∈ (run N (initConfig T locks) sched).threads,
      ts.processed = [] ∧ ∀ v ∈ ts.tclaims, N < v := by
  have h := invE_run N sched hN (initConfig T locks) (invE_init T locks)
  refine ⟨h.hist_eq, ?_, ?_⟩
  · rw [h.hist_eq, List.sum_replicate, smul_zero]
  · intro ts hts
    rcases h.phases ts hts with ⟨_, hpr, hcl⟩
    refine ⟨hpr, ?_⟩
    intro v hv
    have := hcl v hv
    omega

/-- Witness for C8 at N = 0, T = 1. -/
theorem C8_empty_range_witness :
    (0 : Int) < 1 ∧
    ((run 0 (initConfig 1 true) [0, 0]).hist = List.replicate 1001 0 ∧
      (run 0 (initConfig 1 true) [0, 0]).hist.sum = 0 ∧
      ∀ ts ∈ (run 0 (initConfig 1 true) [0, 0]).threads,
        ts.processed = [] ∧ ∀ v ∈ ts.tclaims, (0 : Int) < v) :=
  ⟨by decide, C8_empty_range 0 1 true [0, 0] (by decide)⟩

/-- C9 (refuted): `"abc"` is not a syntactically valid integer, yet the
program reports no usage error — with `argv = [prog, "abc", "2"]` it
proceeds, `atoi` silently turning `"abc"` into `N = 0`. -/
theorem C9_counterexample_invalid_integer_accepted :
    isValidInt "abc" = false ∧
    mainParse ["./mt-collatz", "abc", "2"] = MainResult.proceed 0 2 true := by
  refine ⟨by decide, by decide⟩

/-- C9 amended: `main` reports a usage error (non-zero exit) exactly when
fewer than three `argv` entries are present; whenever N and T arguments are
present — syntactically valid or not — it proceeds with their `atoi`
values and the `-nolock` flag. -/
theorem C9_amended_usage_check (args : List String) :
    (mainParse args = MainResult.usageError ↔ args.length < 3) ∧
    (3 ≤ args.length →
      mainParse args =
        MainResult.proceed (atoi (args.getD 1 "")) (atoi (args.getD 2 ""))
          (if args.length = 4 ∧ args.getD 3 "" = "-nolock" then false else true)) := by
  constructor
  · constructor
    · intro he
      by_contra hlt
      simp only [mainParse, if_neg hlt] at he
      exact MainResult.noConfusion he
    · intro hlt
      simp [mainParse, hlt]
  · intro hge
    have hnl : ¬ args.length < 3 := by omega
    simp [mainParse, hnl]

/-- Witness instantiating the amended C9 at a concrete command line. -/
theorem C9_amended_usage_check_witness :
    (mainParse ["./mt-collatz", "50", "2"] = MainResult.usageError ↔
      (["./mt-collatz", "50", "2"] : List String).length < 3) ∧
    (3 ≤ (["./mt-collatz", "50", "2"] : List String).length →
      mainParse ["./mt-collatz", "50", "2"] =
        MainResult.proceed (atoi ((["./mt-collatz", "50", "2"] : List String).getD 1 ""))
          (atoi ((["./mt-collatz", "50", "2"] : List String).getD 2 ""))
          (if (["./mt-collatz", "50", "2"] : List String).length = 4 ∧
              (["./mt-collatz", "50", "2"] : List String).getD 3 "" = "-nolock"
            then false else true)) :=
  C9_amended_usage_check ["./mt-collatz", "50", "2"]

/-- C10: `compute_stopping_time` is total with result in [0, 1000] for every
integer input — the loop guard `steps < 1000` bounds the iteration count by
1000 — and on input 0, which never reaches 1, it returns exactly 1000. -/
theorem C10_total_bounded :
    (∀ n : Int, compute_stopping_time n ≤ 1000) ∧ compute_stopping_time 0 = 1000 :=
  ⟨compute_stopping_time_le, compute_stopping_time_zero⟩

end MtCollatz
